import Mathlib

/-!
# Verification of the `trie-go` prefix tree

A shallow embedding of the generic trie implementation (package `trie`):
the `Node`/`Trie` data model and the operations `Insert`, `Search`,
`Delete`, `GetAll` and `Clear`, translated from the Go source.

Modelling conventions:
* Keys are modelled as `List Char`, matching the Go code's `[]rune(key)`
  conversion and the design's one-code-point-per-edge granularity.  The
  `Search` loop's position `i` is the UTF-8 **byte offset** of the
  current rune and its bound is the key's byte length, exactly as in
  Go's `for i, char := range key` over a string with `len(key)`.
* The value type `T` is a type parameter `α`; Go's zero value `*new(T)`
  is `default` of an `Inhabited` instance.
* In-place pointer mutation becomes explicit rebuilding of the node
  structure.  The Go operations mutate nothing on any error path (errors
  are raised before any write, and propagated immediately), so the
  embedded operations return `Except`: on `error` the caller keeps the
  unchanged tree.
* The dead `if node == nil` check inside Go's `insert` is unreachable
  (the root and all stored children are non-nil) and is not modelled.
-/

namespace TrieGo

inductive TrieErr : Type where
  | alreadyExists : TrieErr
  | notFound : TrieErr
deriving DecidableEq

/-- One trie node: payload, ordered children, edge symbol, terminal flag.
Mirrors Go's `Node[T]` struct (fields `Value`, `Children`, `KeyRune`,
`IsEnd`). -/
inductive Node (α : Type) : Type where
  | mk (value : α) (children : List (Node α)) (keyRune : Char) (isEnd : Bool) : Node α

def Node.value {α : Type} : Node α → α
  | .mk v _ _ _ => v

def Node.children {α : Type} : Node α → List (Node α)
  | .mk _ cs _ _ => cs

def Node.keyRune {α : Type} : Node α → Char
  | .mk _ _ r _ => r

def Node.isEnd {α : Type} : Node α → Bool
  | .mk _ _ _ e => e

theorem Node.value_mk {α : Type} (v : α) (cs : List (Node α)) (r : Char) (e : Bool) :
    (Node.mk v cs r e).value = v := rfl

theorem Node.children_mk {α : Type} (v : α) (cs : List (Node α)) (r : Char) (e : Bool) :
    (Node.mk v cs r e).children = cs := rfl

theorem Node.keyRune_mk {α : Type} (v : α) (cs : List (Node α)) (r : Char) (e : Bool) :
    (Node.mk v cs r e).keyRune = r := rfl

theorem Node.isEnd_mk {α : Type} (v : α) (cs : List (Node α)) (r : Char) (e : Bool) :
    (Node.mk v cs r e).isEnd = e := rfl

/-- The trie owns a sentinel root node (Go's `Trie[T]` struct). -/
structure Trie (α : Type) : Type where
  Root : Node α

/-- Go's `NewTrie`: a fresh zero-valued root (`&Node[T]{}`). -/
def NewTrie (α : Type) [Inhabited α] : Trie α :=
  ⟨Node.mk default [] (Char.ofNat 0) false⟩

/-- First-match decomposition of a children slice at symbol `c`:
`some (b, hit, a)` when the list is `b ++ hit :: a`, `hit` is the first
child whose `keyRune` is `c`.  This captures the Go pattern
`for i := range node.Children { if key[0] == node.Children[i].KeyRune ... }`. -/
def splitAtChild {α : Type} (cs : List (Node α)) (c : Char) :
    Option (List (Node α) × Node α × List (Node α)) :=
  match cs with
  | [] => none
  | n :: tl =>
    if n.keyRune = c then some ([], n, tl)
    else
      match splitAtChild tl c with
      | some (b, h, a) => some (n :: b, h, a)
      | none => none

/-- The first child carrying symbol `c`, if any. -/
def findChild {α : Type} (cs : List (Node α)) (c : Char) : Option (Node α) :=
  match splitAtChild cs c with
  | some (_, h, _) => some h
  | none => none

/-- Go's recursive `insert(node, key, value)`.  Base case: an already
terminal node yields `AlreadyExists`, otherwise the node is marked
terminal with the value.  Step case: descend into the first child
matching `key[0]`, or append a fresh child and continue. -/
def insert {α : Type} [Inhabited α] (node : Node α) (key : List Char) (v : α) :
    Except TrieErr (Node α) :=
  match key with
  | [] =>
    if node.isEnd then .error .alreadyExists
    else .ok (Node.mk v node.children node.keyRune true)
  | c :: rest =>
    match splitAtChild node.children c with
    | some (b, hit, a) =>
      match insert hit rest v with
      | .ok hit' => .ok (Node.mk node.value (b ++ hit' :: a) node.keyRune node.isEnd)
      | .error e => .error e
    | none =>
      if rest = [] then
        .ok (Node.mk node.value (node.children ++ [Node.mk v [] c true]) node.keyRune node.isEnd)
      else
        match insert (Node.mk default [] c false) rest v with
        | .ok nn => .ok (Node.mk node.value (node.children ++ [nn]) node.keyRune node.isEnd)
        | .error e => .error e

/-- Go's `Insert`: enters at the root; the tree is unchanged on error. -/
def Trie.Insert {α : Type} [Inhabited α] (t : Trie α) (key : List Char) (v : α) :
    Except TrieErr Unit × Trie α :=
  match insert t.Root key v with
  | .ok r => (.ok (), ⟨r⟩)
  | .error e => (.error e, t)

/-- The UTF-8 byte length of a key, i.e. Go's `len(key)` on the string
the rune list was decoded from. -/
def byteLen (key : List Char) : Nat :=
  match key with
  | [] => 0
  | c :: rest => c.utf8Size + byteLen rest

/-- The key is nonempty and its final symbol occupies a single UTF-8
byte.  Go's `Search` success check `(i+1) == len(key)` compares the byte
offset of the current rune with the byte length of the key, so it can
only fire at the final rune and only when that rune is one byte wide. -/
def lastByteOne (key : List Char) : Bool :=
  match key with
  | [] => false
  | [c] => c.utf8Size == 1
  | _ :: rest => lastByteOne rest

/-- The loop body of Go's `Search`: `cur` is `current`, `i` the byte
offset of the next rune (`for i, char := range key`), `n` the byte
length `len(key)`.  When a child matches the symbol, the value is
returned if that child is terminal and `i+1` equals the byte length —
which happens exactly at a final single-byte rune; when no child
matches, `current` is left unchanged and the loop moves to the next
symbol (the code has no early `NotFound` exit). -/
def searchGo {α : Type} [Inhabited α] (cur : Node α) (key : List Char) (i n : Nat) :
    Except TrieErr α :=
  match key with
  | [] => .error .notFound
  | c :: rest =>
    match findChild cur.children c with
    | some ch =>
      if ch.isEnd = true ∧ i + 1 = n then .ok ch.value
      else searchGo ch rest (i + c.utf8Size) n
    | none => searchGo cur rest (i + c.utf8Size) n

/-- Go's `Search`: walk from the root over the whole key, starting at
byte offset 0 with bound `len(key)` (the byte length). -/
def Trie.Search {α : Type} [Inhabited α] (t : Trie α) (key : List Char) :
    Except TrieErr α :=
  searchGo t.Root key 0 (byteLen key)

/-- Go's recursive `deleteNode`.  Returns `(removed value, safe-to-detach,
updated node)`.  Base case: unconditionally clears `IsEnd` and reports
safe-to-detach iff the node is childless.  Step case: recurse into the
first matching child, drop it when it signalled safe-to-detach
(`slices.Delete`), then report safe-to-detach iff this node is now
childless and not terminal; `NotFound` when no child matches. -/
def deleteNode {α : Type} [Inhabited α] (node : Node α) (key : List Char) :
    Except TrieErr (α × Bool × Node α) :=
  match key with
  | [] =>
    if node.children.isEmpty then
      .ok (node.value, true, Node.mk node.value node.children node.keyRune false)
    else
      .ok (node.value, false, Node.mk node.value node.children node.keyRune false)
  | c :: rest =>
    match splitAtChild node.children c with
    | some (b, hit, a) =>
      match deleteNode hit rest with
      | .ok (v, safe, hit') =>
        let cs' := if safe then b ++ a else b ++ hit' :: a
        .ok (v, cs'.isEmpty && !node.isEnd, Node.mk node.value cs' node.keyRune node.isEnd)
      | .error e => .error e
    | none => .error .notFound

/-- Go's `Delete`: enters at the root and ignores the safe-to-detach flag
returned for the root, so the root is never detached; the tree is
unchanged on error. -/
def Trie.Delete {α : Type} [Inhabited α] (t : Trie α) (key : List Char) :
    Except TrieErr α × Trie α :=
  match deleteNode t.Root key with
  | .ok (v, _, r) => (.ok v, ⟨r⟩)
  | .error e => (.error e, t)

/-- Go's `Clear`: the root is replaced by a fresh empty node (the
traversal that nils out nodes has no observable effect on the new tree). -/
def Trie.Clear {α : Type} [Inhabited α] (_t : Trie α) : Trie α :=
  ⟨Node.mk default [] (Char.ofNat 0) false⟩

theorem Node.sizeOf_children_lt {α : Type} [SizeOf α] (n : Node α) :
    sizeOf n.children < sizeOf n := by
  cases n with
  | mk v cs r e => simp [Node.children]; omega

/-- Go's `depthFirstSearchEveryNode`: for each node (in stored order),
first traverse its children, then apply `nodeFun` to the node with its
accumulated key — children are visited **before** their parent. -/
def dfsEvery {α A : Type} (l : List (Node α)) (keys : List Char)
    (f : Node α → List Char → A → A) (acc : A) : A :=
  match l with
  | [] => acc
  | n :: ns =>
    dfsEvery ns keys f (f n (keys ++ [n.keyRune]) (dfsEvery n.children (keys ++ [n.keyRune]) f acc))
termination_by sizeOf l
decreasing_by
  all_goals have := Node.sizeOf_children_lt n
  all_goals simp
  all_goals omega

/-- Go's `GetAll`: accumulate the key of every terminal node during
`depthFirstSearchEveryNode` over the root's children. -/
def Trie.GetAll {α : Type} (t : Trie α) : List (List Char) :=
  dfsEvery t.Root.children [] (fun n ks acc => if n.isEnd then acc ++ [ks] else acc) []

/-- A node is *clean* when it is not simultaneously childless and
non-terminal (the spec calls the opposite a dead node). -/
def cleanNode {α : Type} (n : Node α) : Bool :=
  !(n.children.isEmpty && !n.isEnd)

/-- Every node in the forest `l` (and recursively below) is clean. -/
def deadFreeL {α : Type} (l : List (Node α)) : Bool :=
  match l with
  | [] => true
  | n :: ns => cleanNode n && deadFreeL n.children && deadFreeL ns
termination_by sizeOf l
decreasing_by
  all_goals have := Node.sizeOf_children_lt n
  all_goals simp
  all_goals omega

/-- Structural invariant of §3 of the spec: no reachable node other than
the sentinel root is both non-terminal and childless. -/
def deadFreeT {α : Type} (t : Trie α) : Bool :=
  deadFreeL t.Root.children

/-- Pairwise-distinct child symbols at every node of the forest `l`. -/
def noDupL {α : Type} (l : List (Node α)) : Bool :=
  match l with
  | [] => true
  | n :: ns => ns.all (fun m => !(m.keyRune == n.keyRune)) && noDupL n.children && noDupL ns
termination_by sizeOf l
decreasing_by
  all_goals have := Node.sizeOf_children_lt n
  all_goals simp
  all_goals omega

/-- Data-model invariant of §3 of the spec: all children of a given node
have pairwise-distinct symbols, at every reachable node. -/
def noDupT {α : Type} (t : Trie α) : Bool :=
  noDupL t.Root.children

/-- `storedB n k`: the first-match walk of `k` from `n` exists completely
and ends at a terminal node — `k` is stored as a complete terminal path
below `n`. -/
def storedB {α : Type} (n : Node α) (key : List Char) : Bool :=
  match key with
  | [] => n.isEnd
  | c :: rest =>
    match findChild n.children c with
    | some ch => storedB ch rest
    | none => false

/-- Every node strictly below `n` on the first-match walk of `key` is
clean (the walk stops early where no child matches). -/
def pathClean {α : Type} (n : Node α) (key : List Char) : Bool :=
  match key with
  | [] => true
  | c :: rest =>
    match findChild n.children c with
    | some ch => cleanNode ch && pathClean ch rest
    | none => true

/-- Modelled from the spec's words for §4.4 (claim C7 comparison):
"pre-order DFS over children in insertion order" — each terminal node's
key is emitted **before** its descendants' keys. -/
def preKeysL {α : Type} (l : List (Node α)) (pre : List Char) : List (List Char) :=
  match l with
  | [] => []
  | n :: ns =>
    (if n.isEnd then [pre ++ [n.keyRune]] else []) ++
      preKeysL n.children (pre ++ [n.keyRune]) ++ preKeysL ns pre
termination_by sizeOf l
decreasing_by
  all_goals have := Node.sizeOf_children_lt n
  all_goals simp
  all_goals omega

/-- The post-order reading of §4.4 (children in insertion order, a
terminal node's key emitted **after** its descendants' keys): what the
code's traversal actually produces. -/
def postKeysL {α : Type} (l : List (Node α)) (pre : List Char) : List (List Char) :=
  match l with
  | [] => []
  | n :: ns =>
    postKeysL n.children (pre ++ [n.keyRune]) ++
      (if n.isEnd then [pre ++ [n.keyRune]] else []) ++ postKeysL ns pre
termination_by sizeOf l
decreasing_by
  all_goals have := Node.sizeOf_children_lt n
  all_goals simp
  all_goals omega

theorem splitAtChild_some {α : Type} {cs : List (Node α)} {c : Char}
    {b : List (Node α)} {x : Node α} {a : List (Node α)}
    (hs : splitAtChild cs c = some (b, x, a)) :
    cs = b ++ x :: a ∧ x.keyRune = c ∧ ∀ y ∈ b, y.keyRune ≠ c := by
  induction cs generalizing b x a with
  | nil => simp [splitAtChild] at hs
  | cons n tl ih =>
    by_cases hc : n.keyRune = c
    · simp [splitAtChild, hc] at hs
      obtain ⟨hb, hx, ha⟩ := hs
      subst hb; subst hx; subst ha
      exact ⟨rfl, hc, by simp⟩
    · simp only [splitAtChild, if_neg hc] at hs
      cases hsp : splitAtChild tl c with
      | none => rw [hsp] at hs; simp at hs
      | some p =>
        obtain ⟨b', x', a'⟩ := p
        rw [hsp] at hs
        simp at hs
        obtain ⟨hb, hx, ha⟩ := hs
        obtain ⟨htl, hkey, hfresh⟩ := ih hsp
        subst hb; subst hx; subst ha
        refine ⟨by simp [htl], hkey, ?_⟩
        intro y hy
        rcases List.mem_cons.mp hy with rfl | hy'
        · exact hc
        · exact hfresh y hy'

theorem splitAtChild_none {α : Type} {cs : List (Node α)} {c : Char}
    (hs : splitAtChild cs c = none) : ∀ y ∈ cs, y.keyRune ≠ c := by
  induction cs with
  | nil => simp
  | cons n tl ih =>
    by_cases hc : n.keyRune = c
    · simp [splitAtChild, hc] at hs
    · simp only [splitAtChild, if_neg hc] at hs
      cases hsp : splitAtChild tl c with
      | none =>
        intro y hy
        rcases List.mem_cons.mp hy with rfl | hy'
        · exact hc
        · exact ih hsp y hy'
      | some p => rw [hsp] at hs; simp at hs

theorem splitAtChild_first {α : Type} (b : List (Node α)) (x : Node α)
    (a : List (Node α)) (c : Char) (hx : x.keyRune = c)
    (hb : ∀ y ∈ b, y.keyRune ≠ c) :
    splitAtChild (b ++ x :: a) c = some (b, x, a) := by
  induction b with
  | nil => simp [splitAtChild, hx]
  | cons n tl ih =>
    have hn : n.keyRune ≠ c := hb n (by simp)
    have htl : ∀ y ∈ tl, y.keyRune ≠ c := fun y hy => hb y (by simp [hy])
    simp only [List.cons_append, splitAtChild, if_neg hn, List.append_eq]
    rw [ih htl]

theorem findChild_first {α : Type} (b : List (Node α)) (x : Node α)
    (a : List (Node α)) (c : Char) (hx : x.keyRune = c)
    (hb : ∀ y ∈ b, y.keyRune ≠ c) :
    findChild (b ++ x :: a) c = some x := by
  simp [findChild, splitAtChild_first b x a c hx hb]

theorem findChild_none {α : Type} {cs : List (Node α)} {c : Char}
    (h : ∀ y ∈ cs, y.keyRune ≠ c) : findChild cs c = none := by
  cases hsp : splitAtChild cs c with
  | none => simp [findChild, hsp]
  | some p =>
    obtain ⟨b, x, a⟩ := p
    obtain ⟨hcs, hx, -⟩ := splitAtChild_some hsp
    exact absurd hx (h x (by simp [hcs]))

theorem findChild_of_split {α : Type} {cs : List (Node α)} {c : Char}
    {b : List (Node α)} {x : Node α} {a : List (Node α)}
    (hs : splitAtChild cs c = some (b, x, a)) : findChild cs c = some x := by
  simp [findChild, hs]

theorem insert_step_fields {α : Type} [Inhabited α] {n : Node α} {c : Char}
    {rest : List Char} {v : α} {n' : Node α}
    (h : insert n (c :: rest) v = .ok n') :
    n'.value = n.value ∧ n'.isEnd = n.isEnd ∧ n'.keyRune = n.keyRune := by
  cases hsp : splitAtChild n.children c with
  | some p =>
    obtain ⟨b, hit, a⟩ := p
    cases hins : insert hit rest v with
    | ok hit' =>
      simp only [insert, hsp, hins] at h
      injection h with h'
      subst h'
      exact ⟨rfl, rfl, rfl⟩
    | error e => simp only [insert, hsp, hins] at h; exact absurd h (by simp)
  | none =>
    by_cases hr : rest = []
    · simp only [insert, hsp, if_pos hr] at h
      injection h with h'
      subst h'
      exact ⟨rfl, rfl, rfl⟩
    · cases hins : insert (Node.mk default [] c false) rest v with
      | ok nn =>
        simp only [insert, hsp, if_neg hr, hins] at h
        injection h with h'
        subst h'
        exact ⟨rfl, rfl, rfl⟩
      | error e => simp only [insert, hsp, if_neg hr, hins] at h; exact absurd h (by simp)

theorem insert_keyRune {α : Type} [Inhabited α] {n : Node α} {k : List Char}
    {v : α} {n' : Node α} (h : insert n k v = .ok n') :
    n'.keyRune = n.keyRune := by
  cases k with
  | nil =>
    by_cases he : n.isEnd = true
    · simp [insert, he] at h
    · simp only [insert, he, if_false, Bool.false_eq_true] at h
      injection h with h'
      subst h'
      rfl
  | cons c rest => exact (insert_step_fields h).2.2

theorem insert_fresh_ok {α : Type} [Inhabited α] :
    ∀ (key : List Char) (c : Char) (v : α),
      ∃ nn, insert (Node.mk default [] c false) key v = .ok nn := by
  intro key
  induction key with
  | nil => intro c v; exact ⟨_, rfl⟩
  | cons c2 rest ih =>
    intro c v
    by_cases hr : rest = []
    · subst hr; exact ⟨_, rfl⟩
    · obtain ⟨nn, hnn⟩ := ih c2 v
      refine ⟨Node.mk default ([] ++ [nn]) c false, ?_⟩
      show insert (Node.mk default [] c false) (c2 :: rest) v = _
      simp only [insert, Node.children, Node.value, Node.keyRune, Node.isEnd,
        splitAtChild, hnn, if_neg hr]

theorem insert_error_eq {α : Type} [Inhabited α] :
    ∀ {k : List Char} {n : Node α} {v : α} {e : TrieErr},
      insert n k v = .error e → e = .alreadyExists := by
  intro k
  induction k with
  | nil =>
    intro n v e h
    by_cases he : n.isEnd = true
    · simp only [insert, he, if_true] at h
      injection h with h'
      exact h'.symm
    · simp [insert, he] at h
  | cons c rest ih =>
    intro n v e h
    cases hsp : splitAtChild n.children c with
    | some p =>
      obtain ⟨b, hit, a⟩ := p
      cases hins : insert hit rest v with
      | ok hit' => simp [insert, hsp, hins] at h
      | error e' =>
        simp only [insert, hsp, hins] at h
        injection h with h'
        subst h'
        exact ih hins
    | none =>
      by_cases hr : rest = []
      · simp [insert, hsp, hr] at h
      · cases hins : insert (Node.mk default [] c false) rest v with
        | ok nn => simp [insert, hsp, hr, hins] at h
        | error e' =>
          simp only [insert, hsp, if_neg hr, hins] at h
          injection h with h'
          subst h'
          exact ih hins

theorem insert_ok_iff {α : Type} [Inhabited α] :
    ∀ {k : List Char} (n : Node α) (v : α),
      (∃ n', insert n k v = .ok n') ↔ storedB n k = false := by
  intro k
  induction k with
  | nil =>
    intro n v
    by_cases he : n.isEnd = true
    · simp [insert, storedB, he]
    · simp [insert, storedB, he]
  | cons c rest ih =>
    intro n v
    cases hsp : splitAtChild n.children c with
    | some p =>
      obtain ⟨b, hit, a⟩ := p
      have hfc := findChild_of_split hsp
      cases hins : insert hit rest v with
      | ok hit' =>
        have hstored : storedB hit rest = false := (ih hit v).mp ⟨hit', hins⟩
        simp [insert, storedB, hsp, hins, hfc, hstored]
      | error e' =>
        have hnres : ¬∃ hit', insert hit rest v = .ok hit' := by
          rintro ⟨hit', hc⟩
          rw [hins] at hc
          exact absurd hc (by simp)
        have hstored : storedB hit rest = true := by
          cases hst : storedB hit rest with
          | false => exact absurd ((ih hit v).mpr hst) hnres
          | true => rfl
        simp [insert, storedB, hsp, hins, hfc, hstored]
    | none =>
      have hfc : findChild n.children c = none := by simp [findChild, hsp]
      by_cases hr : rest = []
      · subst hr
        simp [insert, storedB, hsp, hfc]
      · obtain ⟨nn, hnn⟩ := insert_fresh_ok rest c v
        simp [insert, storedB, hsp, hfc, hr, hnn]

theorem stored_insert_error {α : Type} [Inhabited α] {n : Node α}
    {k : List Char} (v : α) (hst : storedB n k = true) :
    insert n k v = .error .alreadyExists := by
  cases hins : insert n k v with
  | ok n' =>
    have : storedB n k = false := (insert_ok_iff n v).mp ⟨n', hins⟩
    rw [hst] at this
    exact absurd this (by simp)
  | error e => rw [insert_error_eq hins]

theorem insert_stored {α : Type} [Inhabited α] :
    ∀ {k : List Char} {n : Node α} {v : α} {n' : Node α},
      insert n k v = .ok n' → storedB n' k = true := by
  intro k
  induction k with
  | nil =>
    intro n v n' h
    by_cases he : n.isEnd = true
    · simp [insert, he] at h
    · simp only [insert, he, if_false, Bool.false_eq_true] at h
      injection h with h'
      subst h'
      rfl
  | cons c rest ih =>
    intro n v n' h
    cases hsp : splitAtChild n.children c with
    | some p =>
      obtain ⟨b, hit, a⟩ := p
      obtain ⟨-, hhit, hb⟩ := splitAtChild_some hsp
      cases hins : insert hit rest v with
      | ok hit' =>
        simp only [insert, hsp, hins] at h
        injection h with h'
        subst h'
        have hk : hit'.keyRune = c := (insert_keyRune hins).trans hhit
        have hfc := findChild_first b hit' a c hk hb
        simp [storedB, Node.children_mk, hfc, ih hins]
      | error e => simp [insert, hsp, hins] at h
    | none =>
      have hfresh := splitAtChild_none hsp
      by_cases hr : rest = []
      · subst hr
        simp only [insert, hsp, if_pos rfl] at h
        injection h with h'
        subst h'
        have hfc := findChild_first n.children (Node.mk v [] c true) [] c rfl hfresh
        simp [storedB, Node.children_mk, hfc, Node.isEnd_mk]
      · cases hins : insert (Node.mk default [] c false) rest v with
        | ok nn =>
          simp only [insert, hsp, if_neg hr, hins] at h
          injection h with h'
          subst h'
          have hk : nn.keyRune = c := insert_keyRune hins
          have hfc := findChild_first n.children nn [] c hk hfresh
          simp [storedB, Node.children_mk, hfc, ih hins]
        | error e => simp [insert, hsp, hr, hins] at h

/-- Index-free reformulation of `searchGo`: with the loop bound set to
the key's byte length, the bookkeeping `i + 1 = n` is equivalent to "the
current symbol is the last one and is one byte wide".  `searchGo` is
proved equal to this below. -/
def searchSuffix {α : Type} [Inhabited α] (cur : Node α) (key : List Char) :
    Except TrieErr α :=
  match key with
  | [] => .error .notFound
  | c :: rest =>
    match findChild cur.children c with
    | some ch =>
      if ch.isEnd = true ∧ rest = [] ∧ c.utf8Size = 1 then .ok ch.value
      else searchSuffix ch rest
    | none => searchSuffix cur rest

theorem byteLen_eq_zero {key : List Char} : byteLen key = 0 ↔ key = [] := by
  cases key with
  | nil => simp [byteLen]
  | cons c rest =>
    simp only [byteLen]
    constructor
    · intro h
      have := c.utf8Size_pos
      omega
    · intro h
      exact absurd h (by simp)

theorem lastByteOne_cons_ne {c : Char} {rest : List Char} (hr : rest ≠ []) :
    lastByteOne (c :: rest) = lastByteOne rest := by
  cases rest with
  | nil => exact absurd rfl hr
  | cons r2 rs => rfl

theorem searchSuffix_mk_stop {α : Type} [Inhabited α] {v0 : α} {cs : List (Node α)}
    {r : Char} {e : Bool} {ch : Node α} {c : Char} {rest : List Char}
    (hfc : findChild cs c = some ch)
    (hcnd : ch.isEnd = true ∧ rest = [] ∧ c.utf8Size = 1) :
    searchSuffix (Node.mk v0 cs r e) (c :: rest) = .ok ch.value := by
  simp only [searchSuffix, Node.children_mk, hfc, if_pos hcnd]

theorem searchSuffix_mk_descend {α : Type} [Inhabited α] {v0 : α} {cs : List (Node α)}
    {r : Char} {e : Bool} {ch : Node α} {c : Char} {rest : List Char}
    (hfc : findChild cs c = some ch)
    (hcnd : ¬(ch.isEnd = true ∧ rest = [] ∧ c.utf8Size = 1)) :
    searchSuffix (Node.mk v0 cs r e) (c :: rest) = searchSuffix ch rest := by
  simp only [searchSuffix, Node.children_mk, hfc, if_neg hcnd]

theorem searchGo_eq_suffix {α : Type} [Inhabited α] :
    ∀ (key : List Char) (cur : Node α) (i : Nat),
      searchGo cur key i (i + byteLen key) = searchSuffix cur key := by
  intro key
  induction key with
  | nil => intro cur i; rfl
  | cons c rest ih =>
    intro cur i
    have hlen : i + byteLen (c :: rest) = (i + c.utf8Size) + byteLen rest := by
      simp only [byteLen]
      omega
    cases hfc : findChild cur.children c with
    | some ch =>
      have hiff : (ch.isEnd = true ∧ i + 1 = i + byteLen (c :: rest)) ↔
          (ch.isEnd = true ∧ rest = [] ∧ c.utf8Size = 1) := by
        constructor
        · rintro ⟨he, hb⟩
          simp only [byteLen] at hb
          have h1 := c.utf8Size_pos
          have h2 : byteLen rest = 0 := by omega
          exact ⟨he, byteLen_eq_zero.mp h2, by omega⟩
        · rintro ⟨he, hr, hsz⟩
          subst hr
          exact ⟨he, by simp [byteLen, hsz]⟩
      by_cases hcnd : ch.isEnd = true ∧ rest = [] ∧ c.utf8Size = 1
      · simp [searchGo, searchSuffix, hfc, hcnd, hiff.mpr hcnd]
      · have hc2 : ¬(ch.isEnd = true ∧ i + 1 = i + byteLen (c :: rest)) :=
          fun h => hcnd (hiff.mp h)
        simp only [searchGo, searchSuffix, hfc, if_neg hc2, if_neg hcnd]
        rw [hlen]
        exact ih ch (i + c.utf8Size)
    | none =>
      simp only [searchGo, searchSuffix, hfc]
      rw [hlen]
      exact ih cur (i + c.utf8Size)

theorem Search_eq_suffix {α : Type} [Inhabited α] (t : Trie α) (key : List Char) :
    Trie.Search t key = searchSuffix t.Root key := by
  have := searchGo_eq_suffix key t.Root 0
  simpa [Trie.Search] using this

/-- After a successful insert of a key whose final symbol is a single
byte, walking that key from the updated node finds the inserted value.
(Go's `Search` can only succeed at a final single-byte rune, because its
success check compares the current byte offset plus one with the byte
length of the key.) -/
theorem insert_searchSuffix {α : Type} [Inhabited α] :
    ∀ {k : List Char} {n : Node α} {v : α} {n' : Node α},
      lastByteOne k = true → insert n k v = .ok n' → searchSuffix n' k = .ok v := by
  intro k
  induction k with
  | nil => intro n v n' hlast; simp [lastByteOne] at hlast
  | cons c rest ih =>
    intro n v n' hlast h
    cases hsp : splitAtChild n.children c with
    | some p =>
      obtain ⟨b, hit, a⟩ := p
      obtain ⟨-, hhit, hb⟩ := splitAtChild_some hsp
      cases hins : insert hit rest v with
      | ok hit' =>
        simp only [insert, hsp, hins] at h
        injection h with h'
        subst h'
        have hk : hit'.keyRune = c := (insert_keyRune hins).trans hhit
        have hfc := findChild_first b hit' a c hk hb
        by_cases hr : rest = []
        · subst hr
          have hsz : c.utf8Size = 1 := by simpa [lastByteOne] using hlast
          have hend : hit.isEnd = false := by
            by_cases he : hit.isEnd = true
            · simp [insert, he] at hins
            · simp at he; exact he
          simp only [insert, hend, Bool.false_eq_true, if_false] at hins
          injection hins with h2
          subst h2
          rw [searchSuffix_mk_stop hfc ⟨rfl, rfl, hsz⟩]
          rfl
        · have hlast2 : lastByteOne rest = true := by
            rw [← lastByteOne_cons_ne (c := c) hr]
            exact hlast
          have hcnd : ¬(hit'.isEnd = true ∧ rest = [] ∧ c.utf8Size = 1) :=
            fun hx => hr hx.2.1
          rw [searchSuffix_mk_descend hfc hcnd]
          exact ih hlast2 hins
      | error e => simp [insert, hsp, hins] at h
    | none =>
      have hfresh := splitAtChild_none hsp
      by_cases hr : rest = []
      · subst hr
        have hsz : c.utf8Size = 1 := by simpa [lastByteOne] using hlast
        simp only [insert, hsp, if_pos rfl] at h
        injection h with h'
        subst h'
        have hfc := findChild_first n.children (Node.mk v [] c true) [] c rfl hfresh
        rw [searchSuffix_mk_stop hfc ⟨rfl, rfl, hsz⟩]
        rfl
      · have hlast2 : lastByteOne rest = true := by
          rw [← lastByteOne_cons_ne (c := c) hr]
          exact hlast
        cases hins : insert (Node.mk default [] c false) rest v with
        | ok nn =>
          simp only [insert, hsp, if_neg hr, hins] at h
          injection h with h'
          subst h'
          have hk : nn.keyRune = c := insert_keyRune hins
          have hfc := findChild_first n.children nn [] c hk hfresh
          have hcnd : ¬(nn.isEnd = true ∧ rest = [] ∧ c.utf8Size = 1) :=
            fun hx => hr hx.2.1
          rw [searchSuffix_mk_descend hfc hcnd]
          exact ih hlast2 hins
        | error e => simp [insert, hsp, hr, hins] at h

theorem searchSuffix_congr {α : Type} [Inhabited α] :
    ∀ (key : List Char) (n m : Node α), n.children = m.children →
      searchSuffix n key = searchSuffix m key := by
  intro key
  induction key with
  | nil => intro n m _; rfl
  | cons c rest ih =>
    intro n m hc
    cases hfc : findChild m.children c with
    | some ch => simp only [searchSuffix, hc, hfc]
    | none =>
      simp only [searchSuffix, hc, hfc]
      exact ih n m hc

/-- Inserting an extension `k ++ d` of an already-inserted key `k`
leaves `k`'s walk intact: `Search`'s outcome on `k` is unchanged. -/
theorem insert_insert_ext {α : Type} [Inhabited α] :
    ∀ {k : List Char} {d : List Char} {v1 v2 : α} {n n' n'' : Node α},
      insert n k v1 = .ok n' → insert n' (k ++ d) v2 = .ok n'' →
      searchSuffix n'' k = searchSuffix n' k := by
  intro k
  induction k with
  | nil => intro d v1 v2 n n' n'' _ _; rfl
  | cons c rest ih =>
    intro d v1 v2 n n' n'' h1 h2
    simp only [List.cons_append] at h2
    cases hsp : splitAtChild n.children c with
    | some p =>
      obtain ⟨b, hit, a⟩ := p
      obtain ⟨-, hhit, hb⟩ := splitAtChild_some hsp
      cases hins1 : insert hit rest v1 with
      | ok hit' =>
        simp only [insert, hsp, hins1] at h1
        injection h1 with h1'
        subst h1'
        have hk1 : hit'.keyRune = c := (insert_keyRune hins1).trans hhit
        have hsp2 : splitAtChild (b ++ hit' :: a) c = some (b, hit', a) :=
          splitAtChild_first b hit' a c hk1 hb
        cases hins2 : insert hit' (rest ++ d) v2 with
        | ok hit'' =>
          simp only [insert, Node.children_mk, Node.value_mk, Node.keyRune_mk,
            Node.isEnd_mk, hsp2, hins2] at h2
          injection h2 with h2'
          subst h2'
          have hk2 : hit''.keyRune = c := (insert_keyRune hins2).trans hk1
          have hfc2 := findChild_first b hit'' a c hk2 hb
          have hfc1 := findChild_first b hit' a c hk1 hb
          by_cases hr : rest = []
          · subst hr
            have hend : hit.isEnd = false := by
              by_cases he : hit.isEnd = true
              · simp [insert, he] at hins1
              · simp at he; exact he
            simp only [insert, hend, Bool.false_eq_true, if_false] at hins1
            injection hins1 with h3
            subst h3
            simp only [List.nil_append] at hins2
            cases d with
            | nil => simp [insert, Node.isEnd_mk] at hins2
            | cons c2 d2 =>
              obtain ⟨hv, he, -⟩ := insert_step_fields hins2
              by_cases hsz : c.utf8Size = 1
              · rw [searchSuffix_mk_stop hfc2 ⟨by rw [he]; rfl, rfl, hsz⟩,
                  searchSuffix_mk_stop hfc1 ⟨rfl, rfl, hsz⟩, hv]
              · have hcnd2 : ¬(hit''.isEnd = true ∧ ([] : List Char) = [] ∧ c.utf8Size = 1) :=
                  fun hx => hsz hx.2.2
                have hcnd1 : ¬((Node.mk v1 hit.children hit.keyRune true).isEnd = true ∧
                    ([] : List Char) = [] ∧ c.utf8Size = 1) := fun hx => hsz hx.2.2
                rw [searchSuffix_mk_descend hfc2 hcnd2,
                  searchSuffix_mk_descend hfc1 hcnd1]
                rfl
          · have hcnd2 : ¬(hit''.isEnd = true ∧ rest = [] ∧ c.utf8Size = 1) :=
              fun hx => hr hx.2.1
            have hcnd1 : ¬(hit'.isEnd = true ∧ rest = [] ∧ c.utf8Size = 1) :=
              fun hx => hr hx.2.1
            rw [searchSuffix_mk_descend hfc2 hcnd2,
              searchSuffix_mk_descend hfc1 hcnd1]
            exact ih hins1 hins2
        | error e =>
          simp [insert, Node.children_mk, Node.value_mk, Node.keyRune_mk,
            Node.isEnd_mk, hsp2, hins2] at h2
      | error e => simp [insert, hsp, hins1] at h1
    | none =>
      have hfresh := splitAtChild_none hsp
      by_cases hr : rest = []
      · subst hr
        simp only [insert, hsp, if_pos rfl] at h1
        injection h1 with h1'
        subst h1'
        have hsp2 : splitAtChild (n.children ++ [Node.mk v1 [] c true]) c =
            some (n.children, Node.mk v1 [] c true, []) :=
          splitAtChild_first n.children (Node.mk v1 [] c true) [] c rfl hfresh
        cases hins2 : insert (Node.mk v1 [] c true) d v2 with
        | ok x'' =>
          simp only [insert, Node.children_mk, Node.value_mk, Node.keyRune_mk,
            Node.isEnd_mk, hsp2, hins2, List.nil_append] at h2
          injection h2 with h2'
          subst h2'
          have hk2 : x''.keyRune = c := insert_keyRune hins2
          have hfc2 := findChild_first n.children x'' [] c hk2 hfresh
          have hfc1 := findChild_first n.children (Node.mk v1 [] c true) [] c rfl hfresh
          cases d with
          | nil => simp [insert, Node.isEnd_mk] at hins2
          | cons c2 d2 =>
            obtain ⟨hv, he, -⟩ := insert_step_fields hins2
            by_cases hsz : c.utf8Size = 1
            · rw [searchSuffix_mk_stop hfc2 ⟨by rw [he]; rfl, rfl, hsz⟩,
                searchSuffix_mk_stop hfc1 ⟨rfl, rfl, hsz⟩, hv]
            · have hcnd2 : ¬(x''.isEnd = true ∧ ([] : List Char) = [] ∧ c.utf8Size = 1) :=
                fun hx => hsz hx.2.2
              have hcnd1 : ¬((Node.mk v1 [] c true).isEnd = true ∧
                  ([] : List Char) = [] ∧ c.utf8Size = 1) := fun hx => hsz hx.2.2
              rw [searchSuffix_mk_descend hfc2 hcnd2,
                searchSuffix_mk_descend hfc1 hcnd1]
              rfl
        | error e =>
          simp [insert, Node.children_mk, Node.value_mk, Node.keyRune_mk,
            Node.isEnd_mk, hsp2, hins2] at h2
      · cases hins1 : insert (Node.mk default [] c false) rest v1 with
        | ok nn =>
          simp only [insert, hsp, if_neg hr, hins1] at h1
          injection h1 with h1'
          subst h1'
          have hk1 : nn.keyRune = c := insert_keyRune hins1
          have hsp2 : splitAtChild (n.children ++ [nn]) c = some (n.children, nn, []) :=
            splitAtChild_first n.children nn [] c hk1 hfresh
          cases hins2 : insert nn (rest ++ d) v2 with
          | ok nn'' =>
            simp only [insert, Node.children_mk, Node.value_mk, Node.keyRune_mk,
              Node.isEnd_mk, hsp2, hins2, List.nil_append] at h2
            injection h2 with h2'
            subst h2'
            have hk2 : nn''.keyRune = c := (insert_keyRune hins2).trans hk1
            have hfc2 := findChild_first n.children nn'' [] c hk2 hfresh
            have hfc1 := findChild_first n.children nn [] c hk1 hfresh
            have hcnd2 : ¬(nn''.isEnd = true ∧ rest = [] ∧ c.utf8Size = 1) :=
              fun hx => hr hx.2.1
            have hcnd1 : ¬(nn.isEnd = true ∧ rest = [] ∧ c.utf8Size = 1) :=
              fun hx => hr hx.2.1
            rw [searchSuffix_mk_descend hfc2 hcnd2,
              searchSuffix_mk_descend hfc1 hcnd1]
            exact ih hins1 hins2
          | error e =>
            simp [insert, Node.children_mk, Node.value_mk, Node.keyRune_mk,
              Node.isEnd_mk, hsp2, hins2] at h2
        | error e => simp [insert, hsp, hr, hins1] at h1

/-- Inserting a strict prefix `k` of an already-inserted key `k ++ d`
leaves the longer key's walk intact: `Search`'s outcome on `k ++ d` is
unchanged. -/
theorem insert_insert_pref {α : Type} [Inhabited α] :
    ∀ {k : List Char} {d : List Char} {v1 v2 : α} {n n' n'' : Node α},
      d ≠ [] → insert n (k ++ d) v1 = .ok n' → insert n' k v2 = .ok n'' →
      searchSuffix n'' (k ++ d) = searchSuffix n' (k ++ d) := by
  intro k
  induction k with
  | nil =>
    intro d v1 v2 n n' n'' hd h1 h2
    simp only [List.nil_append] at h1 ⊢
    have hend : n'.isEnd = false := by
      by_cases he : n'.isEnd = true
      · simp [insert, he] at h2
      · simp at he; exact he
    simp only [insert, hend, Bool.false_eq_true, if_false] at h2
    injection h2 with h2'
    subst h2'
    exact searchSuffix_congr d (Node.mk v2 n'.children n'.keyRune true) n'
      (by simp [Node.children_mk])
  | cons c rest ih =>
    intro d v1 v2 n n' n'' hd h1 h2
    simp only [List.cons_append] at h1 ⊢
    have hrd : rest ++ d ≠ [] := by
      intro hc
      exact hd (List.append_eq_nil.mp hc).2
    cases hsp : splitAtChild n.children c with
    | some p =>
      obtain ⟨b, hit, a⟩ := p
      obtain ⟨-, hhit, hb⟩ := splitAtChild_some hsp
      cases hins1 : insert hit (rest ++ d) v1 with
      | ok hit' =>
        simp only [insert, hsp, hins1] at h1
        injection h1 with h1'
        subst h1'
        have hk1 : hit'.keyRune = c := (insert_keyRune hins1).trans hhit
        have hsp2 : splitAtChild (b ++ hit' :: a) c = some (b, hit', a) :=
          splitAtChild_first b hit' a c hk1 hb
        cases hins2 : insert hit' rest v2 with
        | ok hit'' =>
          simp only [insert, Node.children_mk, Node.value_mk, Node.keyRune_mk,
            Node.isEnd_mk, hsp2, hins2] at h2
          injection h2 with h2'
          subst h2'
          have hk2 : hit''.keyRune = c := (insert_keyRune hins2).trans hk1
          have hfc2 := findChild_first b hit'' a c hk2 hb
          have hfc1 := findChild_first b hit' a c hk1 hb
          have hcnd2 : ¬(hit''.isEnd = true ∧ rest ++ d = [] ∧ c.utf8Size = 1) :=
            fun hx => hrd hx.2.1
          have hcnd1 : ¬(hit'.isEnd = true ∧ rest ++ d = [] ∧ c.utf8Size = 1) :=
            fun hx => hrd hx.2.1
          rw [searchSuffix_mk_descend hfc2 hcnd2,
            searchSuffix_mk_descend hfc1 hcnd1]
          exact ih hd hins1 hins2
        | error e =>
          simp [insert, Node.children_mk, Node.value_mk, Node.keyRune_mk,
            Node.isEnd_mk, hsp2, hins2] at h2
      | error e => simp [insert, hsp, hins1] at h1
    | none =>
      have hfresh := splitAtChild_none hsp
      cases hins1 : insert (Node.mk default [] c false) (rest ++ d) v1 with
      | ok nn =>
        simp only [insert, hsp, if_neg hrd, hins1] at h1
        injection h1 with h1'
        subst h1'
        have hk1 : nn.keyRune = c := insert_keyRune hins1
        have hsp2 : splitAtChild (n.children ++ [nn]) c = some (n.children, nn, []) :=
          splitAtChild_first n.children nn [] c hk1 hfresh
        by_cases hr : rest = []
        · subst hr
          simp only [List.nil_append] at hins1 ⊢
          have hend : nn.isEnd = false := by
            by_cases he : nn.isEnd = true
            · simp [insert, Node.children_mk, Node.value_mk, Node.keyRune_mk,
                Node.isEnd_mk, hsp2, he] at h2
            · simp at he; exact he
          simp only [insert, Node.children_mk, Node.value_mk, Node.keyRune_mk,
            Node.isEnd_mk, hsp2, hend, Bool.false_eq_true, if_false,
            List.nil_append] at h2
          injection h2 with h2'
          subst h2'
          have hk2 : (Node.mk v2 nn.children nn.keyRune true).keyRune = c := hk1
          have hfc2 := findChild_first n.children (Node.mk v2 nn.children nn.keyRune true)
            [] c hk2 hfresh
          have hfc1 := findChild_first n.children nn [] c hk1 hfresh
          have hcnd2 : ¬((Node.mk v2 nn.children nn.keyRune true).isEnd = true ∧
              d = [] ∧ c.utf8Size = 1) := fun hx => hd hx.2.1
          have hcnd1 : ¬(nn.isEnd = true ∧ d = [] ∧ c.utf8Size = 1) :=
            fun hx => hd hx.2.1
          rw [searchSuffix_mk_descend hfc2 hcnd2,
            searchSuffix_mk_descend hfc1 hcnd1]
          exact searchSuffix_congr d (Node.mk v2 nn.children nn.keyRune true) nn
            (by simp [Node.children_mk])
        · cases hins2 : insert nn rest v2 with
          | ok nn'' =>
            simp only [insert, Node.children_mk, Node.value_mk, Node.keyRune_mk,
              Node.isEnd_mk, hsp2, hins2, List.nil_append] at h2
            injection h2 with h2'
            subst h2'
            have hk2 : nn''.keyRune = c := (insert_keyRune hins2).trans hk1
            have hfc2 := findChild_first n.children nn'' [] c hk2 hfresh
            have hfc1 := findChild_first n.children nn [] c hk1 hfresh
            have hcnd2 : ¬(nn''.isEnd = true ∧ rest ++ d = [] ∧ c.utf8Size = 1) :=
              fun hx => hrd hx.2.1
            have hcnd1 : ¬(nn.isEnd = true ∧ rest ++ d = [] ∧ c.utf8Size = 1) :=
              fun hx => hrd hx.2.1
            rw [searchSuffix_mk_descend hfc2 hcnd2,
              searchSuffix_mk_descend hfc1 hcnd1]
            exact ih hd hins1 hins2
          | error e =>
            simp [insert, Node.children_mk, Node.value_mk, Node.keyRune_mk,
              Node.isEnd_mk, hsp2, hins2] at h2
      | error e => simp [insert, hsp, hrd, hins1] at h1

theorem deleteNode_fields {α : Type} [Inhabited α] {n : Node α} {k : List Char}
    {v : α} {s : Bool} {n' : Node α} (h : deleteNode n k = .ok (v, s, n')) :
    n'.keyRune = n.keyRune ∧ n'.value = n.value := by
  cases k with
  | nil =>
    by_cases he : n.children.isEmpty = true
    · simp only [deleteNode, he, if_true] at h
      injection h with h'
      rw [Prod.mk.injEq, Prod.mk.injEq] at h'
      obtain ⟨-, -, hn⟩ := h'
      subst hn
      exact ⟨rfl, rfl⟩
    · simp only [deleteNode, he, Bool.false_eq_true, if_false] at h
      injection h with h'
      rw [Prod.mk.injEq, Prod.mk.injEq] at h'
      obtain ⟨-, -, hn⟩ := h'
      subst hn
      exact ⟨rfl, rfl⟩
  | cons c rest =>
    cases hsp : splitAtChild n.children c with
    | some p =>
      obtain ⟨b, hit, a⟩ := p
      cases hdel : deleteNode hit rest with
      | ok q =>
        obtain ⟨v0, s0, hit'⟩ := q
        simp only [deleteNode, hsp, hdel] at h
        injection h with h'
        rw [Prod.mk.injEq, Prod.mk.injEq] at h'
        obtain ⟨-, -, hn⟩ := h'
        subst hn
        exact ⟨rfl, rfl⟩
      | error e => simp [deleteNode, hsp, hdel] at h
    | none => simp [deleteNode, hsp] at h

theorem deleteNode_safe_iff {α : Type} [Inhabited α] {n : Node α} {k : List Char}
    {v : α} {s : Bool} {n' : Node α} (h : deleteNode n k = .ok (v, s, n')) :
    s = true ↔ (n'.children = [] ∧ n'.isEnd = false) := by
  cases k with
  | nil =>
    by_cases he : n.children.isEmpty = true
    · simp only [deleteNode, he, if_true] at h
      injection h with h'
      rw [Prod.mk.injEq, Prod.mk.injEq] at h'
      obtain ⟨-, hs, hn⟩ := h'
      subst hn
      simp [Node.children_mk, Node.isEnd_mk, ← hs, List.isEmpty_iff.mp he]
    · simp only [deleteNode, he, Bool.false_eq_true, if_false] at h
      injection h with h'
      rw [Prod.mk.injEq, Prod.mk.injEq] at h'
      obtain ⟨-, hs, hn⟩ := h'
      subst hn
      have : n.children ≠ [] := by
        intro hc
        exact he (by simp [hc])
      simp [Node.children_mk, Node.isEnd_mk, ← hs, this]
  | cons c rest =>
    cases hsp : splitAtChild n.children c with
    | some p =>
      obtain ⟨b, hit, a⟩ := p
      cases hdel : deleteNode hit rest with
      | ok q =>
        obtain ⟨v0, s0, hit'⟩ := q
        simp only [deleteNode, hsp, hdel] at h
        injection h with h'
        rw [Prod.mk.injEq, Prod.mk.injEq] at h'
        obtain ⟨-, hs, hn⟩ := h'
        subst hn
        rw [← hs]
        simp only [Node.children_mk, Node.isEnd_mk, Bool.and_eq_true, Bool.not_eq_true',
          List.isEmpty_iff]
      | error e => simp [deleteNode, hsp, hdel] at h
    | none => simp [deleteNode, hsp] at h

theorem deadFreeL_iff {α : Type} (l : List (Node α)) :
    deadFreeL l = true ↔ ∀ x ∈ l, cleanNode x = true ∧ deadFreeL x.children = true := by
  induction l with
  | nil => simp [deadFreeL]
  | cons n ns ih =>
    simp only [deadFreeL, Bool.and_eq_true, ih, List.forall_mem_cons]

theorem noDupL_iff {α : Type} (l : List (Node α)) :
    noDupL l = true ↔ (l.map Node.keyRune).Nodup ∧ ∀ x ∈ l, noDupL x.children = true := by
  induction l with
  | nil => simp [noDupL]
  | cons n ns ih =>
    simp only [noDupL, Bool.and_eq_true, List.all_eq_true, List.map_cons, List.nodup_cons,
      List.mem_map, List.forall_mem_cons, ih]
    constructor
    · rintro ⟨⟨hall, hch⟩, hnd, hrec⟩
      refine ⟨⟨?_, hnd⟩, ⟨hch, hrec⟩⟩
      rintro ⟨m, hm, hkey⟩
      have := hall m hm
      simp only [Bool.not_eq_true', beq_eq_false_iff_ne, ne_eq] at this
      exact this hkey
    · rintro ⟨⟨hnotmem, hnd⟩, hch, hrec⟩
      refine ⟨⟨?_, hch⟩, hnd, hrec⟩
      intro m hm
      simp only [Bool.not_eq_true', beq_eq_false_iff_ne, ne_eq]
      intro hkey
      exact hnotmem ⟨m, hm, hkey⟩

theorem cleanNode_iff {α : Type} (x : Node α) :
    cleanNode x = true ↔ ¬(x.children = [] ∧ x.isEnd = false) := by
  cases he : x.isEnd <;> cases hc : x.children <;> simp [cleanNode, he, hc]

theorem insert_clean {α : Type} [Inhabited α] {n : Node α} {k : List Char}
    {v : α} {n' : Node α} (h : insert n k v = .ok n') : cleanNode n' = true := by
  rw [cleanNode_iff]
  rintro ⟨hc, he⟩
  cases k with
  | nil =>
    by_cases hend : n.isEnd = true
    · simp [insert, hend] at h
    · simp only [insert, hend, Bool.false_eq_true, if_false] at h
      injection h with h'
      subst h'
      simp [Node.isEnd_mk] at he
  | cons c rest =>
    cases hsp : splitAtChild n.children c with
    | some p =>
      obtain ⟨b, hit, a⟩ := p
      cases hins : insert hit rest v with
      | ok hit' =>
        simp only [insert, hsp, hins] at h
        injection h with h'
        subst h'
        simp [Node.children_mk] at hc
      | error e => simp [insert, hsp, hins] at h
    | none =>
      by_cases hr : rest = []
      · simp only [insert, hsp, if_pos hr] at h
        injection h with h'
        subst h'
        simp [Node.children_mk] at hc
      · cases hins : insert (Node.mk default [] c false) rest v with
        | ok nn =>
          simp only [insert, hsp, if_neg hr, hins] at h
          injection h with h'
          subst h'
          simp [Node.children_mk] at hc
        | error e => simp [insert, hsp, hr, hins] at h

theorem insert_deadFree {α : Type} [Inhabited α] :
    ∀ {k : List Char} {n : Node α} {v : α} {n' : Node α},
      insert n k v = .ok n' → deadFreeL n.children = true → deadFreeL n'.children = true := by
  intro k
  induction k with
  | nil =>
    intro n v n' h hd
    by_cases hend : n.isEnd = true
    · simp [insert, hend] at h
    · simp only [insert, hend, Bool.false_eq_true, if_false] at h
      injection h with h'
      subst h'
      simpa [Node.children_mk] using hd
  | cons c rest ih =>
    intro n v n' h hd
    cases hsp : splitAtChild n.children c with
    | some p =>
      obtain ⟨b, hit, a⟩ := p
      obtain ⟨hcs, -, -⟩ := splitAtChild_some hsp
      cases hins : insert hit rest v with
      | ok hit' =>
        simp only [insert, hsp, hins] at h
        injection h with h'
        subst h'
        rw [hcs] at hd
        rw [Node.children_mk, deadFreeL_iff]
        rw [deadFreeL_iff] at hd
        intro x hx
        rcases List.mem_append.mp hx with hxb | hxr
        · exact hd x (by simp [hxb])
        · rcases List.mem_cons.mp hxr with rfl | hxa
          · have hhit := hd hit (by simp)
            exact ⟨insert_clean hins, ih hins hhit.2⟩
          · exact hd x (by simp [hxa])
      | error e => simp [insert, hsp, hins] at h
    | none =>
      by_cases hr : rest = []
      · simp only [insert, hsp, if_pos hr] at h
        injection h with h'
        subst h'
        rw [Node.children_mk, deadFreeL_iff]
        rw [deadFreeL_iff] at hd
        intro x hx
        rcases List.mem_append.mp hx with hxb | hxr
        · exact hd x hxb
        · rcases List.mem_cons.mp hxr with rfl | hxa
          · exact ⟨by simp [cleanNode, Node.children_mk, Node.isEnd_mk], by simp [Node.children_mk, deadFreeL]⟩
          · simp at hxa
      · cases hins : insert (Node.mk default [] c false) rest v with
        | ok nn =>
          simp only [insert, hsp, if_neg hr, hins] at h
          injection h with h'
          subst h'
          rw [Node.children_mk, deadFreeL_iff]
          rw [deadFreeL_iff] at hd
          intro x hx
          rcases List.mem_append.mp hx with hxb | hxr
          · exact hd x hxb
          · rcases List.mem_cons.mp hxr with rfl | hxa
            · exact ⟨insert_clean hins, ih hins (by simp [Node.children_mk, deadFreeL])⟩
            · simp at hxa
        | error e => simp [insert, hsp, hr, hins] at h

theorem insert_noDup {α : Type} [Inhabited α] :
    ∀ {k : List Char} {n : Node α} {v : α} {n' : Node α},
      insert n k v = .ok n' → noDupL n.children = true → noDupL n'.children = true := by
  intro k
  induction k with
  | nil =>
    intro n v n' h hd
    by_cases hend : n.isEnd = true
    · simp [insert, hend] at h
    · simp only [insert, hend, Bool.false_eq_true, if_false] at h
      injection h with h'
      subst h'
      simpa [Node.children_mk] using hd
  | cons c rest ih =>
    intro n v n' h hd
    cases hsp : splitAtChild n.children c with
    | some p =>
      obtain ⟨b, hit, a⟩ := p
      obtain ⟨hcs, hhit, -⟩ := splitAtChild_some hsp
      cases hins : insert hit rest v with
      | ok hit' =>
        simp only [insert, hsp, hins] at h
        injection h with h'
        subst h'
        rw [hcs] at hd
        rw [Node.children_mk, noDupL_iff]
        rw [noDupL_iff] at hd
        obtain ⟨hnd, hmem⟩ := hd
        constructor
        · have hkeys : (b ++ hit' :: a).map Node.keyRune = (b ++ hit :: a).map Node.keyRune := by
            simp [List.map_append, insert_keyRune hins]
          rw [hkeys]
          exact hnd
        · intro x hx
          rcases List.mem_append.mp hx with hxb | hxr
          · exact hmem x (by simp [hxb])
          · rcases List.mem_cons.mp hxr with rfl | hxa
            · exact ih hins (hmem hit (by simp))
            · exact hmem x (by simp [hxa])
      | error e => simp [insert, hsp, hins] at h
    | none =>
      have hfresh := splitAtChild_none hsp
      by_cases hr : rest = []
      · simp only [insert, hsp, if_pos hr] at h
        injection h with h'
        subst h'
        rw [Node.children_mk, noDupL_iff]
        rw [noDupL_iff] at hd
        obtain ⟨hnd, hmem⟩ := hd
        constructor
        · rw [List.map_append]
          rw [List.nodup_append]
          refine ⟨hnd, by simp, ?_⟩
          intro y hy
          obtain ⟨x, hx, hxy⟩ := List.mem_map.mp hy
          simp only [List.map_cons, Node.keyRune_mk, List.map_nil, List.mem_singleton]
          intro hc2
          exact hfresh x hx (hxy.trans hc2)
        · intro x hx
          rcases List.mem_append.mp hx with hxb | hxr
          · exact hmem x hxb
          · rcases List.mem_cons.mp hxr with rfl | hxa
            · simp [Node.children_mk, noDupL]
            · simp at hxa
      · cases hins : insert (Node.mk default [] c false) rest v with
        | ok nn =>
          simp only [insert, hsp, if_neg hr, hins] at h
          injection h with h'
          subst h'
          rw [Node.children_mk, noDupL_iff]
          rw [noDupL_iff] at hd
          obtain ⟨hnd, hmem⟩ := hd
          have hkey : nn.keyRune = c := insert_keyRune hins
          constructor
          · rw [List.map_append]
            rw [List.nodup_append]
            refine ⟨hnd, by simp, ?_⟩
            intro y hy
            obtain ⟨x, hx, hxy⟩ := List.mem_map.mp hy
            simp only [List.map_cons, List.map_nil, List.mem_singleton, hkey]
            intro hc2
            exact hfresh x hx (hxy.trans hc2)
          · intro x hx
            rcases List.mem_append.mp hx with hxb | hxr
            · exact hmem x hxb
            · rcases List.mem_cons.mp hxr with rfl | hxa
              · exact ih hins (by simp [Node.children_mk, noDupL])
              · simp at hxa
        | error e => simp [insert, hsp, hr, hins] at h

theorem deleteNode_deadFree {α : Type} [Inhabited α] :
    ∀ {k : List Char} {n : Node α} {v : α} {s : Bool} {n' : Node α},
      deleteNode n k = .ok (v, s, n') → deadFreeL n.children = true →
      deadFreeL n'.children = true := by
  intro k
  induction k with
  | nil =>
    intro n v s n' h hd
    by_cases he : n.children.isEmpty = true
    · simp only [deleteNode, he, if_true] at h
      injection h with h'
      rw [Prod.mk.injEq, Prod.mk.injEq] at h'
      obtain ⟨-, -, hn⟩ := h'
      subst hn
      simpa [Node.children_mk] using hd
    · simp only [deleteNode, he, Bool.false_eq_true, if_false] at h
      injection h with h'
      rw [Prod.mk.injEq, Prod.mk.injEq] at h'
      obtain ⟨-, -, hn⟩ := h'
      subst hn
      simpa [Node.children_mk] using hd
  | cons c rest ih =>
    intro n v s n' h hd
    cases hsp : splitAtChild n.children c with
    | some p =>
      obtain ⟨b, hit, a⟩ := p
      obtain ⟨hcs, -, -⟩ := splitAtChild_some hsp
      cases hdel : deleteNode hit rest with
      | ok q =>
        obtain ⟨v0, s0, hit'⟩ := q
        simp only [deleteNode, hsp, hdel] at h
        injection h with h'
        rw [Prod.mk.injEq, Prod.mk.injEq] at h'
        obtain ⟨-, -, hn⟩ := h'
        subst hn
        rw [hcs] at hd
        rw [Node.children_mk, deadFreeL_iff]
        rw [deadFreeL_iff] at hd
        cases s0 with
        | true =>
          simp only [if_true]
          intro x hx
          rcases List.mem_append.mp hx with hxb | hxa
          · exact hd x (by simp [hxb])
          · exact hd x (by simp [hxa])
        | false =>
          simp only [Bool.false_eq_true, if_false]
          intro x hx
          rcases List.mem_append.mp hx with hxb | hxr
          · exact hd x (by simp [hxb])
          · rcases List.mem_cons.mp hxr with rfl | hxa
            · refine ⟨?_, ih hdel (hd hit (by simp)).2⟩
              rw [cleanNode_iff]
              intro hdead
              have := (deleteNode_safe_iff hdel).mpr hdead
              exact absurd this (by simp)
            · exact hd x (by simp [hxa])
      | error e => simp [deleteNode, hsp, hdel] at h
    | none => simp [deleteNode, hsp] at h

theorem deleteNode_noDup {α : Type} [Inhabited α] :
    ∀ {k : List Char} {n : Node α} {v : α} {s : Bool} {n' : Node α},
      deleteNode n k = .ok (v, s, n') → noDupL n.children = true →
      noDupL n'.children = true := by
  intro k
  induction k with
  | nil =>
    intro n v s n' h hd
    by_cases he : n.children.isEmpty = true
    · simp only [deleteNode, he, if_true] at h
      injection h with h'
      rw [Prod.mk.injEq, Prod.mk.injEq] at h'
      obtain ⟨-, -, hn⟩ := h'
      subst hn
      simpa [Node.children_mk] using hd
    · simp only [deleteNode, he, Bool.false_eq_true, if_false] at h
      injection h with h'
      rw [Prod.mk.injEq, Prod.mk.injEq] at h'
      obtain ⟨-, -, hn⟩ := h'
      subst hn
      simpa [Node.children_mk] using hd
  | cons c rest ih =>
    intro n v s n' h hd
    cases hsp : splitAtChild n.children c with
    | some p =>
      obtain ⟨b, hit, a⟩ := p
      obtain ⟨hcs, -, -⟩ := splitAtChild_some hsp
      cases hdel : deleteNode hit rest with
      | ok q =>
        obtain ⟨v0, s0, hit'⟩ := q
        simp only [deleteNode, hsp, hdel] at h
        injection h with h'
        rw [Prod.mk.injEq, Prod.mk.injEq] at h'
        obtain ⟨-, -, hn⟩ := h'
        subst hn
        rw [hcs] at hd
        rw [Node.children_mk, noDupL_iff]
        rw [noDupL_iff] at hd
        obtain ⟨hnd, hmem⟩ := hd
        cases s0 with
        | true =>
          simp only [if_true]
          constructor
          · rw [List.map_append] at hnd ⊢
            rw [List.map_cons] at hnd
            exact hnd.sublist
              (List.Sublist.append_left (List.sublist_cons_self _ _) (b.map Node.keyRune))
          · intro x hx
            rcases List.mem_append.mp hx with hxb | hxa
            · exact hmem x (by simp [hxb])
            · exact hmem x (by simp [hxa])
        | false =>
          simp only [Bool.false_eq_true, if_false]
          constructor
          · have hkeys : (b ++ hit' :: a).map Node.keyRune = (b ++ hit :: a).map Node.keyRune := by
              simp [List.map_append, (deleteNode_fields hdel).1]
            rw [hkeys]
            exact hnd
          · intro x hx
            rcases List.mem_append.mp hx with hxb | hxr
            · exact hmem x (by simp [hxb])
            · rcases List.mem_cons.mp hxr with rfl | hxa
              · exact ih hdel (hmem hit (by simp))
              · exact hmem x (by simp [hxa])
      | error e => simp [deleteNode, hsp, hdel] at h
    | none => simp [deleteNode, hsp] at h

/-- After a successful delete, all nodes strictly below the entry node on
the key's walk are clean: pruning cascaded correctly. -/
theorem deleteNode_pathClean {α : Type} [Inhabited α] :
    ∀ {k : List Char} {n : Node α} {v : α} {s : Bool} {n' : Node α},
      noDupL n.children = true → deleteNode n k = .ok (v, s, n') →
      pathClean n' k = true := by
  intro k
  induction k with
  | nil => intro n v s n' _ _; rfl
  | cons c rest ih =>
    intro n v s n' hd h
    cases hsp : splitAtChild n.children c with
    | some p =>
      obtain ⟨b, hit, a⟩ := p
      obtain ⟨hcs, hhit, hb⟩ := splitAtChild_some hsp
      cases hdel : deleteNode hit rest with
      | ok q =>
        obtain ⟨v0, s0, hit'⟩ := q
        simp only [deleteNode, hsp, hdel] at h
        injection h with h'
        rw [Prod.mk.injEq, Prod.mk.injEq] at h'
        obtain ⟨-, -, hn⟩ := h'
        subst hn
        rw [hcs] at hd
        rw [noDupL_iff] at hd
        obtain ⟨hnd, hmem⟩ := hd
        cases s0 with
        | true =>
          simp only [if_true]
          have hfa : ∀ y ∈ a, y.keyRune ≠ c := by
            intro y hy hyc
            rw [List.map_append, List.map_cons, hhit] at hnd
            have := (List.nodup_append.mp hnd).2.1
            rw [List.nodup_cons] at this
            exact this.1 (List.mem_map.mpr ⟨y, hy, hyc⟩)
          have hfc : findChild (b ++ a) c = none := by
            apply findChild_none
            intro y hy
            rcases List.mem_append.mp hy with hyb | hya
            · exact hb y hyb
            · exact hfa y hya
          simp [pathClean, Node.children_mk, hfc]
        | false =>
          simp only [Bool.false_eq_true, if_false]
          have hk : hit'.keyRune = c := (deleteNode_fields hdel).1.trans hhit
          have hfc := findChild_first b hit' a c hk hb
          have hclean : cleanNode hit' = true := by
            rw [cleanNode_iff]
            intro hdead
            have := (deleteNode_safe_iff hdel).mpr hdead
            exact absurd this (by simp)
          have hrec := ih (hmem hit (by simp)) hdel
          simp [pathClean, Node.children_mk, hfc, hclean, hrec]
      | error e => simp [deleteNode, hsp, hdel] at h
    | none => simp [deleteNode, hsp] at h

theorem dfsEvery_post {α : Type} :
    ∀ (l : List (Node α)) (keys : List Char),
      ∀ acc : List (List Char),
        dfsEvery l keys (fun n ks a => if n.isEnd then a ++ [ks] else a) acc =
          acc ++ postKeysL l keys := by
  intro l keys
  induction l, keys using postKeysL.induct with
  | case1 pre => intro acc; simp [dfsEvery, postKeysL]
  | case2 pre n ns ih1 ih2 =>
    intro acc
    by_cases he : n.isEnd = true <;>
      simp [dfsEvery, he, ih1, ih2, postKeysL, List.append_assoc]

/-- `GetAll` emits exactly the stored keys in post-order DFS order
(children in insertion order, each terminal node after its subtree). -/
theorem GetAll_eq_post {α : Type} (t : Trie α) :
    Trie.GetAll t = postKeysL t.Root.children [] := by
  have := dfsEvery_post t.Root.children [] []
  simpa [Trie.GetAll] using this

theorem TrieInsert_ok {α : Type} [Inhabited α] {t t1 : Trie α} {k : List Char}
    {v : α} (h : Trie.Insert t k v = (.ok (), t1)) :
    insert t.Root k v = .ok t1.Root := by
  unfold Trie.Insert at h
  cases hins : insert t.Root k v with
  | ok r =>
    rw [hins] at h
    injection h with h1 h2
    rw [← h2]
  | error e =>
    rw [hins] at h
    injection h with h1 h2
    exact absurd h1 (by simp)

theorem TrieDelete_ok {α : Type} [Inhabited α] {t t1 : Trie α} {k : List Char}
    {v : α} (h : Trie.Delete t k = (.ok v, t1)) :
    ∃ s, deleteNode t.Root k = .ok (v, s, t1.Root) := by
  unfold Trie.Delete at h
  cases hdel : deleteNode t.Root k with
  | ok q =>
    obtain ⟨v0, s0, r⟩ := q
    rw [hdel] at h
    injection h with h1 h2
    injection h1 with h1'
    rw [← h2, h1']
    exact ⟨s0, rfl⟩
  | error e =>
    rw [hdel] at h
    injection h with h1 h2
    exact absurd h1 (by simp)

/-- C1 (amended: keys ending in a single-byte symbol).  For every key
`k` that is nonempty and whose final symbol occupies one UTF-8 byte, and
every value `v`, in every trie state where `Insert(k, v)` returns
success, an immediately following `Search(k)` returns `v` with no error.
(The claim as stated is false both at the empty key and at any key whose
final rune is multi-byte, because Go's success check compares the byte
offset plus one with the byte length: see the counterexample.) -/
theorem c1_insert_then_search {α : Type} [Inhabited α] (t t1 : Trie α)
    (k : List Char) (v : α) (hlast : lastByteOne k = true)
    (h : Trie.Insert t k v = (.ok (), t1)) :
    Trie.Search t1 k = .ok v := by
  rw [Search_eq_suffix]
  exact insert_searchSuffix hlast (TrieInsert_ok h)

/-- C1 counterexample: `Insert("", 5)` on a fresh trie returns success
yet `Search("")` returns NotFound; likewise `Insert("é", 5)` succeeds
yet `Search("é")` returns NotFound, because `(i+1) == len(key)` never
holds when the final rune is two bytes wide. -/
theorem c1_insert_search_cex :
    ((Trie.Insert (NewTrie Nat) [] 5).1 = .ok () ∧
      Trie.Search (Trie.Insert (NewTrie Nat) [] 5).2 [] = .error .notFound) ∧
    ((Trie.Insert (NewTrie Nat) ['é'] 5).1 = .ok () ∧
      Trie.Search (Trie.Insert (NewTrie Nat) ['é'] 5).2 ['é'] = .error .notFound) :=
  ⟨⟨rfl, rfl⟩, ⟨rfl, rfl⟩⟩

theorem c1_insert_then_search_witness :
    lastByteOne ['a'] = true ∧
      Trie.Search (Trie.Insert (NewTrie Nat) ['a'] 1).2 ['a'] = .ok 1 :=
  ⟨by decide,
    c1_insert_then_search (NewTrie Nat) (Trie.Insert (NewTrie Nat) ['a'] 1).2 ['a'] 1
      (by decide) rfl⟩

/-- C2 is violated by the code: with only the key "ab" (value 7) stored,
`Search("xab")` hits a step (symbol 'x' at the root) where no child
matches, yet the loop silently skips the symbol instead of returning
NotFound, walks "ab", and returns the value 7. -/
theorem c2_search_gap_bug :
    Trie.Search (Trie.Insert (NewTrie Nat) ['a', 'b'] 7).2 ['x', 'a', 'b'] = .ok 7 :=
  rfl

/-- C4 is violated by the code: with only "hello" stored, the path "hel"
exists but its final node is not terminal (`Search("hel")` is NotFound),
yet `Delete("hel")` returns success with the zero value instead of
NotFound — `deleteNode`'s base case never checks the terminal flag. -/
theorem c4_delete_nonterminal_bug :
    Trie.Search (Trie.Insert (NewTrie Nat) ['h','e','l','l','o'] 7).2 ['h','e','l'] =
        .error .notFound ∧
      (Trie.Delete (Trie.Insert (NewTrie Nat) ['h','e','l','l','o'] 7).2 ['h','e','l']).1 =
        .ok 0 :=
  ⟨rfl, rfl⟩

/-- C5 (amended).  After `Insert(k, v)` succeeds, a second
`Insert(k, v2)` always returns AlreadyExists and leaves the tree
unchanged; and whenever `k` is nonempty with a single-byte final symbol,
`Search(k)` afterwards still returns the original `v`.  (The Search
clause as originally stated fails at the empty key and at keys ending in
a multi-byte rune: see the counterexample.) -/
theorem c5_reinsert_already_exists {α : Type} [Inhabited α] (t t1 : Trie α)
    (k : List Char) (v v2 : α)
    (h : Trie.Insert t k v = (.ok (), t1)) :
    Trie.Insert t1 k v2 = (.error .alreadyExists, t1) ∧
      (lastByteOne k = true → Trie.Search t1 k = .ok v) := by
  have h1 := TrieInsert_ok h
  have hst : storedB t1.Root k = true := insert_stored h1
  have herr : insert t1.Root k v2 = .error .alreadyExists := stored_insert_error v2 hst
  constructor
  · unfold Trie.Insert
    rw [herr]
  · intro hlast
    rw [Search_eq_suffix]
    exact insert_searchSuffix hlast h1

/-- C5 counterexample: at the empty key — and likewise at "é", whose
only rune is two bytes wide — the second insert does return
AlreadyExists, but `Search` yields NotFound rather than the original
value 5, so the claim as stated fails. -/
theorem c5_reinsert_search_cex :
    ((Trie.Insert (NewTrie Nat) [] 5).1 = .ok () ∧
      (Trie.Insert (Trie.Insert (NewTrie Nat) [] 5).2 [] 6).1 = .error .alreadyExists ∧
      Trie.Search (Trie.Insert (NewTrie Nat) [] 5).2 [] = .error .notFound) ∧
    ((Trie.Insert (NewTrie Nat) ['é'] 5).1 = .ok () ∧
      (Trie.Insert (Trie.Insert (NewTrie Nat) ['é'] 5).2 ['é'] 6).1 = .error .alreadyExists ∧
      Trie.Search (Trie.Insert (NewTrie Nat) ['é'] 5).2 ['é'] = .error .notFound) :=
  ⟨⟨rfl, rfl, rfl⟩, ⟨rfl, rfl, rfl⟩⟩

theorem c5_reinsert_already_exists_witness :
    lastByteOne ['a'] = true ∧
      Trie.Insert (Trie.Insert (NewTrie Nat) ['a'] 1).2 ['a'] 2 =
        (.error .alreadyExists, (Trie.Insert (NewTrie Nat) ['a'] 1).2) ∧
      Trie.Search (Trie.Insert (NewTrie Nat) ['a'] 1).2 ['a'] = .ok 1 :=
  ⟨by decide,
    (c5_reinsert_already_exists (NewTrie Nat) (Trie.Insert (NewTrie Nat) ['a'] 1).2
      ['a'] 1 2 rfl).1,
    (c5_reinsert_already_exists (NewTrie Nat) (Trie.Insert (NewTrie Nat) ['a'] 1).2
      ['a'] 1 2 rfl).2 (by decide)⟩

/-- C10: `Search` of the empty key always returns NotFound — the loop
body never runs and the final `return *new(T), ErrNotFound` is reached —
even though `Insert("", v)` on a fresh trie succeeds and marks the
sentinel root terminal. -/
theorem c10_empty_key_never_found {α : Type} [Inhabited α] :
    (∀ t : Trie α, Trie.Search t [] = .error .notFound) ∧
    (∀ v : α, Trie.Insert (NewTrie α) [] v =
        (.ok (), ⟨Node.mk v [] (Char.ofNat 0) true⟩)) ∧
    (∀ (t t1 : Trie α) (v : α), Trie.Insert t [] v = (.ok (), t1) →
      t1.Root.isEnd = true ∧ Trie.Search t1 [] = .error .notFound) := by
  refine ⟨fun t => rfl, fun v => rfl, fun t t1 v h => ?_⟩
  have h1 := TrieInsert_ok h
  by_cases he : t.Root.isEnd = true
  · simp [insert, he] at h1
  · simp only [insert, he, Bool.false_eq_true, if_false] at h1
    injection h1 with h1'
    constructor
    · rw [← h1']
      rfl
    · rfl

theorem c10_empty_key_never_found_witness :
    Trie.Insert (NewTrie Nat) [] 5 = (.ok (), (Trie.Insert (NewTrie Nat) [] 5).2) ∧
      (Trie.Insert (NewTrie Nat) [] 5).2.Root.isEnd = true ∧
      Trie.Search (Trie.Insert (NewTrie Nat) [] 5).2 [] = .error .notFound :=
  ⟨rfl,
    (c10_empty_key_never_found.2.2 (NewTrie Nat) (Trie.Insert (NewTrie Nat) [] 5).2 5 rfl).1,
    (c10_empty_key_never_found.2.2 (NewTrie Nat) (Trie.Insert (NewTrie Nat) [] 5).2 5 rfl).2⟩

/-- C3: for distinct keys `k` and `k ++ d` (one a strict prefix of the
other), inserting the second key after the first succeeds — provided the
second key is not already stored, which is the only way any insert can
fail — and does not disturb what `Search` returns for the first key; in
particular inserting a strict prefix of an already-stored key does not
return AlreadyExists. -/
theorem c3_strict_prefix_keys {α : Type} [Inhabited α] (t t1 : Trie α)
    (k d : List Char) (v1 v2 : α) (hd : d ≠ []) :
    (Trie.Insert t k v1 = (.ok (), t1) → storedB t1.Root (k ++ d) = false →
      ∃ t2, Trie.Insert t1 (k ++ d) v2 = (.ok (), t2) ∧
        Trie.Search t2 k = Trie.Search t1 k) ∧
    (Trie.Insert t (k ++ d) v1 = (.ok (), t1) → storedB t1.Root k = false →
      ∃ t2, Trie.Insert t1 k v2 = (.ok (), t2) ∧
        Trie.Search t2 (k ++ d) = Trie.Search t1 (k ++ d)) := by
  constructor
  · intro h hst
    have h1 := TrieInsert_ok h
    obtain ⟨r2, h2⟩ := (insert_ok_iff t1.Root v2).mpr hst
    refine ⟨⟨r2⟩, ?_, ?_⟩
    · unfold Trie.Insert
      rw [h2]
    · rw [Search_eq_suffix, Search_eq_suffix]
      exact insert_insert_ext h1 h2
  · intro h hst
    have h1 := TrieInsert_ok h
    obtain ⟨r2, h2⟩ := (insert_ok_iff t1.Root v2).mpr hst
    refine ⟨⟨r2⟩, ?_, ?_⟩
    · unfold Trie.Insert
      rw [h2]
    · rw [Search_eq_suffix, Search_eq_suffix]
      exact insert_insert_pref hd h1 h2

theorem c3_strict_prefix_keys_witness :
    (['i'] ≠ ([] : List Char)) ∧
      Trie.Insert (NewTrie Nat) ['h'] 1 = (.ok (), (Trie.Insert (NewTrie Nat) ['h'] 1).2) ∧
      storedB (Trie.Insert (NewTrie Nat) ['h'] 1).2.Root (['h'] ++ ['i']) = false ∧
      (∃ t2, Trie.Insert (Trie.Insert (NewTrie Nat) ['h'] 1).2 (['h'] ++ ['i']) 2 =
          (.ok (), t2) ∧
        Trie.Search t2 ['h'] = Trie.Search (Trie.Insert (NewTrie Nat) ['h'] 1).2 ['h']) :=
  ⟨by decide, rfl, by rfl,
    (c3_strict_prefix_keys (NewTrie Nat) (Trie.Insert (NewTrie Nat) ['h'] 1).2
      ['h'] ['i'] 1 2 (by decide)).1 rfl (by rfl)⟩

/-- C6: after every successful `Delete(k)` (on a trie whose children
carry pairwise-distinct symbols), (i) `deleteNode` reports a node
safe-to-detach exactly when it ended up childless and non-terminal, so a
cleared node that still has children is kept while dead chains cascade
upward; (ii) no node left on `k`'s walk in the resulting trie is both
non-terminal and childless; (iii) `Delete` rebuilds the trie from the
processed root regardless of the root's own safe-to-detach flag — the
sentinel root is never detached. -/
theorem c6_delete_prune_cascade {α : Type} [Inhabited α] :
    (∀ (n : Node α) (k : List Char) (v : α) (s : Bool) (n' : Node α),
        deleteNode n k = .ok (v, s, n') →
        (s = true ↔ (n'.children = [] ∧ n'.isEnd = false))) ∧
    (∀ (t t1 : Trie α) (k : List Char) (v : α),
        noDupT t = true → Trie.Delete t k = (.ok v, t1) →
        pathClean t1.Root k = true) ∧
    (∀ (t : Trie α) (k : List Char) (v : α) (s : Bool) (r : Node α),
        deleteNode t.Root k = .ok (v, s, r) → Trie.Delete t k = (.ok v, ⟨r⟩)) := by
  refine ⟨fun n k v s n' h => deleteNode_safe_iff h,
    fun t t1 k v hnd h => ?_, fun t k v s r h => ?_⟩
  · obtain ⟨s, hdel⟩ := TrieDelete_ok h
    exact deleteNode_pathClean hnd hdel
  · unfold Trie.Delete
    rw [h]

theorem c6_delete_prune_cascade_witness :
    noDupT (Trie.Insert (Trie.Insert (NewTrie Nat) ['a','b'] 1).2 ['a'] 2).2 = true ∧
      Trie.Delete (Trie.Insert (Trie.Insert (NewTrie Nat) ['a','b'] 1).2 ['a'] 2).2 ['a','b'] =
        (.ok 1,
          (Trie.Delete (Trie.Insert (Trie.Insert (NewTrie Nat) ['a','b'] 1).2 ['a'] 2).2
            ['a','b']).2) ∧
      pathClean
        (Trie.Delete (Trie.Insert (Trie.Insert (NewTrie Nat) ['a','b'] 1).2 ['a'] 2).2
          ['a','b']).2.Root ['a','b'] = true :=
  ⟨by simp [noDupT, Trie.Insert, NewTrie, insert, splitAtChild, Node.children_mk,
      Node.keyRune_mk, Node.isEnd_mk, Node.value_mk, noDupL],
    rfl,
    c6_delete_prune_cascade.2.1
      (Trie.Insert (Trie.Insert (NewTrie Nat) ['a','b'] 1).2 ['a'] 2).2
      (Trie.Delete (Trie.Insert (Trie.Insert (NewTrie Nat) ['a','b'] 1).2 ['a'] 2).2
        ['a','b']).2 ['a','b'] 1
      (by simp [noDupT, Trie.Insert, NewTrie, insert, splitAtChild, Node.children_mk,
        Node.keyRune_mk, Node.isEnd_mk, Node.value_mk, noDupL])
      rfl⟩

/-- C7 (amended).  `GetAll` is deterministic, but its order is the
**post-order** DFS over children in insertion order (each terminal node's
key is emitted after its subtree, because `depthFirstSearchEveryNode`
recurses into the children before calling `nodeFun`), not pre-order; in
the concrete scenario Insert("hello"), Insert("hel") it returns
["hello", "hel"]. -/
theorem c7_getall_postorder :
    (∀ (α : Type) (t : Trie α), Trie.GetAll t = postKeysL t.Root.children []) ∧
      Trie.GetAll
          (Trie.Insert (Trie.Insert (NewTrie Nat) ['h','e','l','l','o'] 1).2
            ['h','e','l'] 2).2 =
        [['h','e','l','l','o'], ['h','e','l']] :=
  ⟨fun α t => GetAll_eq_post t, by
    simp [Trie.GetAll, Trie.Insert, NewTrie, insert, splitAtChild, Node.children_mk,
      Node.keyRune_mk, Node.isEnd_mk, Node.value_mk, dfsEvery]⟩

/-- C7 counterexample: in the claim's concrete scenario the code returns
["hello", "hel"], not the claimed pre-order sequence ["hel", "hello"]. -/
theorem c7_preorder_cex :
    Trie.GetAll
        (Trie.Insert (Trie.Insert (NewTrie Nat) ['h','e','l','l','o'] 1).2
          ['h','e','l'] 2).2 ≠
      [['h','e','l'], ['h','e','l','l','o']] := by
  have hev : Trie.GetAll
      (Trie.Insert (Trie.Insert (NewTrie Nat) ['h','e','l','l','o'] 1).2
        ['h','e','l'] 2).2 = [['h','e','l','l','o'], ['h','e','l']] := by
    simp [Trie.GetAll, Trie.Insert, NewTrie, insert, splitAtChild, Node.children_mk,
      Node.keyRune_mk, Node.isEnd_mk, Node.value_mk, dfsEvery]
  rw [hev]
  decide

/-- C8: every public operation preserves the invariant that the children
of any reachable node carry pairwise-distinct symbols (`Insert` only
appends a child after scanning all existing children for the symbol;
`Delete` only removes or rewrites children in place); the fresh and
cleared tries satisfy it trivially.  `Search` and `GetAll` do not mutate
the tree. -/
theorem c8_children_distinct {α : Type} [Inhabited α] :
    (∀ (t : Trie α) (k : List Char) (v : α),
        noDupT t = true → noDupT (Trie.Insert t k v).2 = true) ∧
    (∀ (t : Trie α) (k : List Char),
        noDupT t = true → noDupT (Trie.Delete t k).2 = true) ∧
    (∀ t : Trie α, noDupT (Trie.Clear t) = true) ∧
    noDupT (NewTrie α) = true := by
  refine ⟨fun t k v h => ?_, fun t k h => ?_, fun t => by simp [noDupT, Trie.Clear,
    Node.children_mk, noDupL], by simp [noDupT, NewTrie, Node.children_mk, noDupL]⟩
  · cases hins : insert t.Root k v with
    | ok r =>
      have heq : (Trie.Insert t k v).2 = ⟨r⟩ := by
        unfold Trie.Insert
        rw [hins]
      rw [heq]
      exact insert_noDup hins h
    | error e =>
      have heq : (Trie.Insert t k v).2 = t := by
        unfold Trie.Insert
        rw [hins]
      rw [heq]
      exact h
  · cases hdel : deleteNode t.Root k with
    | ok q =>
      obtain ⟨v0, s0, r⟩ := q
      have heq : (Trie.Delete t k).2 = ⟨r⟩ := by
        unfold Trie.Delete
        rw [hdel]
      rw [heq]
      exact deleteNode_noDup hdel h
    | error e =>
      have heq : (Trie.Delete t k).2 = t := by
        unfold Trie.Delete
        rw [hdel]
      rw [heq]
      exact h

theorem c8_children_distinct_witness :
    noDupT (NewTrie Nat) = true ∧
      noDupT (Trie.Insert (NewTrie Nat) ['a','b'] 1).2 = true :=
  ⟨by simp [noDupT, NewTrie, Node.children_mk, noDupL],
    c8_children_distinct.1 (NewTrie Nat) ['a','b'] 1
      (by simp [noDupT, NewTrie, Node.children_mk, noDupL])⟩

/-- C9: every public operation preserves the structural invariant that no
reachable node other than the sentinel root is simultaneously
non-terminal and childless — in particular `Delete` prunes dead chains
before returning, and `Insert` only creates chains ending in a terminal
node.  `Search` and `GetAll` do not mutate the tree. -/
theorem c9_no_dead_nodes {α : Type} [Inhabited α] :
    (∀ (t : Trie α) (k : List Char) (v : α),
        deadFreeT t = true → deadFreeT (Trie.Insert t k v).2 = true) ∧
    (∀ (t : Trie α) (k : List Char),
        deadFreeT t = true → deadFreeT (Trie.Delete t k).2 = true) ∧
    (∀ t : Trie α, deadFreeT (Trie.Clear t) = true) ∧
    deadFreeT (NewTrie α) = true := by
  refine ⟨fun t k v h => ?_, fun t k h => ?_, fun t => by simp [deadFreeT, Trie.Clear,
    Node.children_mk, deadFreeL], by simp [deadFreeT, NewTrie, Node.children_mk, deadFreeL]⟩
  · cases hins : insert t.Root k v with
    | ok r =>
      have heq : (Trie.Insert t k v).2 = ⟨r⟩ := by
        unfold Trie.Insert
        rw [hins]
      rw [heq]
      exact insert_deadFree hins h
    | error e =>
      have heq : (Trie.Insert t k v).2 = t := by
        unfold Trie.Insert
        rw [hins]
      rw [heq]
      exact h
  · cases hdel : deleteNode t.Root k with
    | ok q =>
      obtain ⟨v0, s0, r⟩ := q
      have heq : (Trie.Delete t k).2 = ⟨r⟩ := by
        unfold Trie.Delete
        rw [hdel]
      rw [heq]
      exact deleteNode_deadFree hdel h
    | error e =>
      have heq : (Trie.Delete t k).2 = t := by
        unfold Trie.Delete
        rw [hdel]
      rw [heq]
      exact h

theorem c9_no_dead_nodes_witness :
    deadFreeT (NewTrie Nat) = true ∧
      deadFreeT (Trie.Insert (NewTrie Nat) ['a','b'] 1).2 = true :=
  ⟨by simp [deadFreeT, NewTrie, Node.children_mk, deadFreeL],
    c9_no_dead_nodes.1 (NewTrie Nat) ['a','b'] 1
      (by simp [deadFreeT, NewTrie, Node.children_mk, deadFreeL])⟩

end TrieGo
